import Mathlib

/-
Verification of the Monte Carlo completeness engine of the narrow-band
emission-line survey analysis code (completeness_analysis.py and the
completeness package: stats.py and the revised completeness_analysis.py).

Numeric arrays are embedded as lists of real numbers.  NumPy float
operations that can produce non-finite values (log10 of a non-positive
argument inside color_cut) are embedded with an explicit value type RF
carrying the finite / +infinity / NaN outcomes, with the IEEE comparison
semantics (any comparison against NaN is false).
-/

open Classical

/-- RF models the value of a NumPy float expression that is either a finite
real, positive infinity, or NaN.  color_cut only ever produces these three
shapes: a finite value when the log10 argument is positive, +inf when it is
exactly 0 (log10(0) = -inf, and mean - 2.5*(-inf) = +inf), and NaN when it
is negative. -/
inductive RF where
  | fin : ℝ → RF
  | pinf : RF
  | nan : RF

/-- IEEE semantics of the NumPy elementwise comparison x >= v where x is a
finite float and v an RF value: false whenever v is NaN, false against
positive infinity. -/
def RF.geReal (x : ℝ) : RF → Prop
  | RF.fin r => r ≤ x
  | RF.pinf => False
  | RF.nan => False

/-- IEEE semantics of the NumPy elementwise comparison x < v where x is a
finite float and v an RF value: false whenever v is NaN, true against
positive infinity. -/
def RF.ltReal (x : ℝ) : RF → Prop
  | RF.fin r => x < r
  | RF.pinf => True
  | RF.nan => False

/-- RF.isFinite holds exactly on finite values. -/
def RF.isFinite : RF → Prop
  | RF.fin _ => True
  | RF.pinf => False
  | RF.nan => False

/-- AB magnitude zero point, m_AB = 48.6 in completeness_analysis.py. -/
def m_AB : ℝ := 48.6

/-- Limiting magnitudes for the NB data, array m_NB in
completeness_analysis.py. -/
noncomputable def m_NB : Fin 5 → ℝ :=
  ![26.7134 - 0.047, 26.0684, 26.9016 + 0.057, 26.7088 - 0.109, 25.6917 - 0.051]

/-- Minimum NB excess color for selection, list minthres in
completeness_analysis.py. -/
noncomputable def minthres : Fin 5 → ℝ := ![0.15, 0.15, 0.15, 0.2, 0.25]

/-- get_sigma from completeness_analysis.py: magnitude errors based on the
limiting magnitude, dmag = 2.5*log10(1 + 1/SNR) with
SNR = sigma * 10^(-0.4*(x - lim1)). -/
noncomputable def get_sigma (x lim1 sigma : ℝ) : ℝ :=
  2.5 * Real.logb 10 (1 + 1 / (sigma * (10 : ℝ) ^ (-0.4 * (x - lim1))))

/-- AB flux corresponding to a magnitude, f = 10^(-0.4*(m_AB + x)) inside
color_cut. -/
noncomputable def flux_of (x : ℝ) : ℝ := (10 : ℝ) ^ (-0.4 * (m_AB + x))

/-- Scaled limiting flux inside color_cut:
f1 = (sigma/3.0) * 10^(-0.4*(m_AB + lim1)), and f2 likewise from lim2. -/
noncomputable def flux_limit (lim sigma : ℝ) : ℝ := (sigma / 3.0) * flux_of lim

/-- color_cut from completeness_analysis.py: NB excess color selection
threshold based on limiting magnitudes.  The source computes
val = mean - 2.5*np.log10(1 - np.sqrt(f1**2 + f2**2)/f) with
f1 = (sigma/3.0)*10^(-0.4*(m_AB+lim1)), f2 = (sigma/3.0)*10^(-0.4*(m_AB+lim2))
and f = 10^(-0.4*(m_AB+x)); when the log10 argument is 0 NumPy yields -inf
hence val = +inf, and when it is negative NumPy yields NaN. -/
noncomputable def color_cut (x lim1 lim2 mean sigma : ℝ) : RF :=
  let f1 := flux_limit lim1 sigma
  let f2 := flux_limit lim2 sigma
  let f := flux_of x
  let arg := 1 - Real.sqrt (f1 ^ 2 + f2 ^ 2) / f
  if 0 < arg then RF.fin (mean - 2.5 * Real.logb 10 arg)
  else if arg = 0 then RF.pinf
  else RF.nan

/-- Per-object selection threshold computed inside NB_select:
sig_limit = color_cut(NB_mag, m_NB[ff], cont_lim[ff]) with the default
mean = 0.0 and sigma = 3.0.  The per-filter effective continuum limit
cont_lim is computed by mag_combine in the external NB_errors module, so it
is kept as a parameter here. -/
noncomputable def sig_limit_at (contLim : Fin 5 → ℝ) (ff : Fin 5)
    (NB_mag : List ℝ) (i : ℕ) : RF :=
  color_cut (NB_mag.getD i 0) (m_NB ff) (contLim ff) 0.0 3.0

/-- NB_select from completeness_analysis.py.  Returns the set of indices in
NB_sel = np.where((x_mag >= minthres[ff]) & (x_mag >= sig_limit)), the set
of indices in NB_nosel = np.where((x_mag < minthres[ff]) | (x_mag < sig_limit)),
and the sig_limit array, with the IEEE comparison semantics of RF. -/
noncomputable def NB_select (contLim : Fin 5 → ℝ) (ff : Fin 5)
    (NB_mag x_mag : List ℝ) : Set ℕ × Set ℕ × List RF :=
  ({i | i < x_mag.length ∧ minthres ff ≤ x_mag.getD i 0 ∧
        RF.geReal (x_mag.getD i 0) (sig_limit_at contLim ff NB_mag i)},
   {i | i < x_mag.length ∧ (x_mag.getD i 0 < minthres ff ∨
        RF.ltReal (x_mag.getD i 0) (sig_limit_at contLim ff NB_mag i))},
   NB_mag.map (fun nb => color_cut nb (m_NB ff) (contLim ff) 0.0 3.0))

/-- correct_NII from completeness_analysis.py: Halpha flux from F_NB using
the NII/Ha flux ratio, log_flux - log10(1 + NIIHa). -/
noncomputable def correct_NII (log_flux NIIHa : ℝ) : ℝ :=
  log_flux - Real.logb 10 (1 + NIIHa)

/-- Scalar core of get_NIIHa_logOH from completeness_analysis.py: the source
fills NIIHa[logM <= 8.0] with the constant 0.0624396766589 and
NIIHa[logM > 8.0] with 0.169429547993*logM - 1.29299670728, which is this
elementwise piecewise function. -/
noncomputable def NIIHa_of (logM : ℝ) : ℝ :=
  if logM ≤ 8.0 then 0.0624396766589 else 0.169429547993 * logM - 1.29299670728

/-- get_NIIHa_logOH from completeness_analysis.py, elementwise over the
array of log stellar masses.  The metallicity uses the external calibrator
niiha_oh_determine(log10(NIIHa * 1/(1+1/2.96)), PP04_N2), kept as the
parameter niihaOh; the source subtracts 12.0 from its result. -/
noncomputable def get_NIIHa_logOH (niihaOh : ℝ → ℝ) (logM : List ℝ) :
    List ℝ × List ℝ :=
  (logM.map NIIHa_of,
   logM.map (fun m =>
     niihaOh (Real.logb 10 (NIIHa_of m * (1 / (1 + 1 / 2.96)))) - 12.0))

/-- HaSFR_metal_dep from completeness_analysis.py: metallicity-dependent
SFR conversion, log_SFR = (-41.34 + 0.39*y + 0.127*y^2) + orig_lums with
y = logOH + 3.31. -/
noncomputable def HaSFR_metal_dep (logOH orig_lums : ℝ) : ℝ :=
  (-41.34 + 0.39 * (logOH + 3.31) + 0.127 * (logOH + 3.31) ^ 2) + orig_lums

/-- Per-galaxy record returned by derived_properties. -/
structure DerivedProps where
  logEW : ℝ
  flux : ℝ
  logM : ℝ
  NIIHa : ℝ
  logOH : ℝ
  HaFlux : ℝ
  HaLum : ℝ
  logSFR : ℝ

/-- derived_properties from completeness_analysis.py, per galaxy.  The EW
and NB flux inversion ew_flux_dual lives in the external NB_errors module
and the magnitude-to-mass interpolation mass_int is built from calibration
files, so both are parameters, as is the metallicity calibrator niihaOh.
The source computes flux = log10(NB_flux * filt_corr),
Ha_Flux = correct_NII(flux, NIIHa),
Ha_Lum = Ha_Flux + log10(4*pi) + 2*log10(lum_dist) with lum_dist the
luminosity distance in cm, and logSFR = HaSFR_metal_dep(logOH, Ha_Lum). -/
noncomputable def derived_properties (ewFluxDual : ℝ → ℝ → ℝ → ℝ × ℝ)
    (mass_int : ℝ → ℝ) (niihaOh : ℝ → ℝ) (filt_corr lum_dist : ℝ)
    (NB BB x : ℝ) : DerivedProps :=
  let EW := (ewFluxDual NB BB x).1
  let flux := Real.logb 10 ((ewFluxDual NB BB x).2 * filt_corr)
  let logM := mass_int BB
  let NIIHa := NIIHa_of logM
  let logOH := niihaOh (Real.logb 10 (NIIHa * (1 / (1 + 1 / 2.96)))) - 12.0
  let HaFlux := correct_NII flux NIIHa
  let HaLum := HaFlux + Real.logb 10 (4 * Real.pi) + 2 * Real.logb 10 lum_dist
  { logEW := Real.logb 10 EW
    flux := flux
    logM := logM
    NIIHa := NIIHa
    logOH := logOH
    HaFlux := HaFlux
    HaLum := HaLum
    logSFR := HaSFR_metal_dep logOH HaLum }

/-- Negative-value clamp applied in ew_MC after the EW-to-color-excess
inversion: negs = np.where(x_MC0_ref < 0); x_MC0_ref[negs] = 0.0.  The
comparison v < 0 is false for NaN, but the interpolator output is always a
real number here (finite input, finite table, finite fill values), embedded
as a total real function. -/
noncomputable def clip_negs (xs : List ℝ) : List ℝ :=
  xs.map (fun v => if v < 0 then 0 else v)

/-- Color excess array x_MC0_ref built in ew_MC: the EW-to-color-excess
interpolator EW_int (built per filter from the band-pass flux equations,
kept as a parameter) applied to the log-EW draws, then negatives clamped
to 0. -/
noncomputable def x_MC0_ref (EW_int : ℝ → ℝ) (logEW_MC_ref : List ℝ) : List ℝ :=
  clip_negs (logEW_MC_ref.map EW_int)

/-
Model of the NumPy global random number generator used by the Monte Carlo
engine.  The global RNG is a state; np.random.seed(s) -- a call -- resets
the state to a value determined by s alone; np.random.normal(size=n) reads
n deviates off the stream determined by the current state and advances the
state.  The deviate stream is an arbitrary fixed injective function of the
state, which captures that distinct states yield distinct draws while the
draws from a given state are reproducible.
-/

/-- Global RNG state of the NumPy random module. -/
abbrev RNGState := ℕ

/-- Effect of the call np.random.seed(s): the state becomes a function of
the seed alone. -/
def seedCall (s : ℕ) : RNGState := s

/-- Deviate stream of a given RNG state: draw i from state st.  The values
stand in for standard-normal deviates; only their deterministic dependence
on the state matters. -/
noncomputable def normalDraw (st : RNGState) (i : ℕ) : ℝ :=
  (st : ℝ) + (i : ℝ) / ((i : ℝ) + 1)

/-- Reading a row of n normal deviates from the current state. -/
noncomputable def normalRow (st : RNGState) (n : ℕ) : List ℝ :=
  (List.range n).map (normalDraw st)

/-- State advance after drawing n deviates. -/
def advance (st : RNGState) (n : ℕ) : RNGState := st + n

/-- mock_ones from completeness_analysis.py: np.ones((Nmock,1)) * arr0,
repeating a row Nmock times. -/
def mock_ones (arr0 : List ℝ) (Nmock : ℕ) : List (List ℝ) :=
  (List.range Nmock).map (fun _ => arr0)

/-- random_mags from completeness_analysis.py (the cited source lines).  The
first statement of its body is the attribute assignment
np.random.seed = t_seed, which rebinds the name np.random.seed to the
integer and leaves the RNG state untouched -- it is not a call, so t_seed
never reaches the generator.  The draws therefore come from the ambient
state g: row r of the (N_rep, Ngal) normal array uses the state after r
earlier rows.  Returns the randomized magnitudes and the advanced state. -/
noncomputable def random_mags (t_seed : ℕ) (N_rep : ℕ) (mag_ref sig_ref : List ℝ)
    (g : RNGState) : List (List ℝ) × RNGState :=
  let _ := t_seed
  let rows := (List.range N_rep).map (fun r =>
    (List.range mag_ref.length).map (fun c =>
      mag_ref.getD c 0 + normalDraw g (r * mag_ref.length + c) * sig_ref.getD c 0))
  (rows, advance g (N_rep * mag_ref.length))

/-- Deterministic seed for the per-hypothesis EW draw in ew_MC:
EW_seed = mm * len(ss_range) + ss. -/
def EW_seed (mm ss n_ss : ℕ) : ℕ := mm * n_ss + ss

/-- Per-hypothesis log-EW draw of ew_MC in the completeness package:
np.random.seed(EW_seed) -- an actual call -- followed by
rand0 = np.random.normal(0.0, 1.0, size=Ngal) and
logEW_MC_ref = logEW_mean[mm] + logEW_sig[ss] * rand0.  The ambient state g
is overwritten by the seed call. -/
noncomputable def ew_MC_logEW_draw (mm ss n_ss Ngal : ℕ) (mean sig : ℝ)
    (g : RNGState) : List ℝ × RNGState :=
  let _ := g
  let st := seedCall (EW_seed mm ss n_ss)
  ((normalRow st Ngal).map (fun r => mean + sig * r), advance st Ngal)

/-- Usable chi-square bins of stats_plot in completeness/stats.py:
use_bins = np.where((Ng != 0) & (No != 0))[0]. -/
noncomputable def use_bins (Ng No : List ℝ) : Finset ℕ :=
  (Finset.range Ng.length).filter
    (fun i => Ng.getD i 0 ≠ 0 ∧ No.getD i 0 ≠ 0)

/-- Per-bin residual significance of stats_plot:
delta = (Ng - No)/np.sqrt(Ng + No), at bin i. -/
noncomputable def delta_fn (Ng No : List ℝ) (i : ℕ) : ℝ :=
  (Ng.getD i 0 - No.getD i 0) / Real.sqrt (Ng.getD i 0 + No.getD i 0)

/-- Reduced chi-square computation of stats_plot in completeness/stats.py:
if len(use_bins) > 2 the value sum(delta[use_bins]**2)/(len(use_bins)-2) is
returned, otherwise fit_chi2 = np.nan is returned; the NaN sentinel is
embedded as none. -/
noncomputable def stats_plot (Ng No : List ℝ) : Option ℝ :=
  if 2 < (use_bins Ng No).card then
    some ((∑ i ∈ use_bins Ng No, delta_fn Ng No i ^ 2) /
      ((use_bins Ng No).card - 2 : ℝ))
  else none

/-- Combined chi-square metric of ew_MC in the completeness package:
chi2_wht = np.sqrt(chi2_EW0**2/2 + chi2_Fl0**2/2), per grid point. -/
noncomputable def chi2_wht (ew fl : ℝ) : ℝ :=
  Real.sqrt (ew ^ 2 / 2 + fl ^ 2 / 2)

/-- The (mean, sigma) grid of ew_MC in row-major order: mm is the outer
loop (n_mean = 4) and ss the inner loop (n_sigma = 4). -/
def gridRowMajor : List (Fin 4 × Fin 4) :=
  (List.finRange 4).flatMap (fun mm => (List.finRange 4).map (fun ss => (mm, ss)))

/-- Minimum of the combined chi-square metric over the full grid,
np.min(chi2_wht). -/
noncomputable def gridMin (chiEW chiFl : Fin 4 → Fin 4 → ℝ) : ℝ :=
  Finset.univ.inf' Finset.univ_nonempty
    (fun p : Fin 4 × Fin 4 => chi2_wht (chiEW p.1 p.2) (chiFl p.1 p.2))

/-- b_chi2 = np.where(chi2_wht == np.min(chi2_wht)) of ew_MC: the grid
points attaining the minimum, in the row-major order np.where reports. -/
noncomputable def b_chi2 (chiEW chiFl : Fin 4 → Fin 4 → ℝ) :
    List (Fin 4 × Fin 4) :=
  gridRowMajor.filter
    (fun p => decide (chi2_wht (chiEW p.1 p.2) (chiFl p.1 p.2) =
      gridMin chiEW chiFl))

/-- Rows selected into the best-fit record:
best_tab0 = comp_tab[b_chi2[0] * len(ss_range) + b_chi2[1]] with
len(ss_range) = 4, giving the flat row-major indices of every tied grid
point. -/
noncomputable def best_fit_rows (chiEW chiFl : Fin 4 → Fin 4 → ℝ) : List ℕ :=
  (b_chi2 chiEW chiFl).map (fun p => p.1.val * 4 + p.2.val)

/-- Helper: getD through List.map at an in-range index. -/
theorem getD_map_lt {α β : Type} (f : α → β) (l : List α) (i : ℕ)
    (hi : i < l.length) (da : α) (db : β) :
    (l.map f).getD i db = f (l.getD i da) := by
  rw [List.getD_eq_getElem _ _ (by simpa using hi), List.getD_eq_getElem _ _ hi]
  simp

/-- C5: get_sigma returns dmag = 2.5*log10(1 + 1/SNR) elementwise with
SNR = sigma*10^(-0.4*(x - lim)) and no clamping; at x equal to the limiting
magnitude the SNR factor 10^(-0.4*(lim - lim)) is exactly 1, so SNR = sigma
and dmag = 2.5*log10(1 + 1/sigma). -/
theorem get_sigma_spec (x lim1 sigma : ℝ) :
    get_sigma x lim1 sigma =
      2.5 * Real.logb 10 (1 + 1 / (sigma * (10 : ℝ) ^ (-0.4 * (x - lim1))))
    ∧ sigma * (10 : ℝ) ^ (-0.4 * (lim1 - lim1)) = sigma
    ∧ get_sigma lim1 lim1 sigma = 2.5 * Real.logb 10 (1 + 1 / sigma) := by
  refine ⟨rfl, ?_, ?_⟩ <;>
    simp [get_sigma, sub_self, mul_zero, Real.rpow_zero]

/-- C7: the NIIHa component of get_NIIHa_logOH equals the constant
0.0624396766589 for every entry with logM <= 8.0 (including exactly 8.0)
and 0.169429547993*logM - 1.29299670728 for every entry with logM > 8.0. -/
theorem get_NIIHa_logOH_piecewise (niihaOh : ℝ → ℝ) (logM : List ℝ) (i : ℕ)
    (hi : i < logM.length) :
    (logM.getD i 0 ≤ 8.0 →
      (get_NIIHa_logOH niihaOh logM).1.getD i 0 = 0.0624396766589)
    ∧ (8.0 < logM.getD i 0 →
      (get_NIIHa_logOH niihaOh logM).1.getD i 0 =
        0.169429547993 * logM.getD i 0 - 1.29299670728) := by
  have h := getD_map_lt NIIHa_of logM i hi 0 0
  rw [get_NIIHa_logOH]
  constructor
  · intro hle
    rw [h, NIIHa_of, if_pos hle]
  · intro hgt
    rw [h, NIIHa_of, if_neg (not_le.mpr hgt)]

/-- C7 witness: at logM exactly 8.0 the NIIHa value is the low-mass
constant. -/
theorem get_NIIHa_logOH_piecewise_witness :
    0 < ([8.0] : List ℝ).length
    ∧ (get_NIIHa_logOH id [8.0]).1.getD 0 0 = 0.0624396766589 :=
  ⟨by simp,
   (get_NIIHa_logOH_piecewise id [8.0] 0 (by simp)).1 (by norm_num)⟩

/-- C8: derived_properties computes the NII-corrected Halpha flux as
HaFlux = flux - log10(1 + NIIHa), the luminosity as
HaLum = HaFlux + log10(4*pi) + 2*log10(lum_dist), and the SFR as
logSFR = -41.34 + 0.39*y + 0.127*y^2 + HaLum with y = logOH + 3.31, where
logOH is the PP04_N2 calibrator applied to log10 of the NII6583/Halpha
ratio NIIHa/(1 + 1/2.96), minus 12. -/
theorem derived_properties_spec (ewFluxDual : ℝ → ℝ → ℝ → ℝ × ℝ)
    (mass_int niihaOh : ℝ → ℝ) (filt_corr lum_dist NB BB x : ℝ) :
    (derived_properties ewFluxDual mass_int niihaOh filt_corr lum_dist
        NB BB x).HaFlux =
      (derived_properties ewFluxDual mass_int niihaOh filt_corr lum_dist
        NB BB x).flux - Real.logb 10 (1 +
      (derived_properties ewFluxDual mass_int niihaOh filt_corr lum_dist
        NB BB x).NIIHa)
    ∧ (derived_properties ewFluxDual mass_int niihaOh filt_corr lum_dist
        NB BB x).HaLum =
      (derived_properties ewFluxDual mass_int niihaOh filt_corr lum_dist
        NB BB x).HaFlux + Real.logb 10 (4 * Real.pi) +
        2 * Real.logb 10 lum_dist
    ∧ (derived_properties ewFluxDual mass_int niihaOh filt_corr lum_dist
        NB BB x).logSFR =
      -41.34 + 0.39 * ((derived_properties ewFluxDual mass_int niihaOh
        filt_corr lum_dist NB BB x).logOH + 3.31) +
      0.127 * ((derived_properties ewFluxDual mass_int niihaOh filt_corr
        lum_dist NB BB x).logOH + 3.31) ^ 2 +
      (derived_properties ewFluxDual mass_int niihaOh filt_corr lum_dist
        NB BB x).HaLum
    ∧ (derived_properties ewFluxDual mass_int niihaOh filt_corr lum_dist
        NB BB x).logOH =
      niihaOh (Real.logb 10 ((derived_properties ewFluxDual mass_int niihaOh
        filt_corr lum_dist NB BB x).NIIHa * (1 / (1 + 1 / 2.96)))) - 12.0 := by
  refine ⟨rfl, rfl, ?_, rfl⟩
  simp only [derived_properties, HaSFR_metal_dep]

/-- C9: after the EW-to-color-excess inversion, the clamp
x_MC0_ref[x_MC0_ref < 0] = 0 leaves every entry of x_MC0_ref nonnegative,
for any interpolator EW_int and any log-EW draw. -/
theorem x_MC0_ref_nonneg (EW_int : ℝ → ℝ) (logEW_MC : List ℝ) (v : ℝ)
    (hv : v ∈ x_MC0_ref EW_int logEW_MC) : 0 ≤ v := by
  rw [x_MC0_ref, clip_negs, List.map_map] at hv
  obtain ⟨t, _, rfl⟩ := List.mem_map.mp hv
  simp only [Function.comp_apply]
  split
  · exact le_refl 0
  · exact le_of_not_lt (by assumption)

/-- C9 witness: an interpolator returning a negative color excess is
clamped, and the resulting entry 0 is nonnegative. -/
theorem x_MC0_ref_nonneg_witness :
    (0 : ℝ) ∈ x_MC0_ref (fun t => t - 5) [1.0]
    ∧ (0 : ℝ) ≤ 0 :=
  have hmem : (0 : ℝ) ∈ x_MC0_ref (fun t => t - 5) [1.0] := by
    rw [x_MC0_ref, clip_negs]
    norm_num
  ⟨hmem, x_MC0_ref_nonneg (fun t => t - 5) [1.0] 0 hmem⟩

/-- C10: every NIIHa ratio produced by get_NIIHa_logOH is at least the
low-mass constant 0.0624396766589, in particular strictly positive, and
the NII correction strictly decreases the log flux:
correct_NII(L, NIIHa) < L. -/
theorem NIIHa_pos_correct_NII_decreases (niihaOh : ℝ → ℝ) (logM : List ℝ)
    (v : ℝ) (hv : v ∈ (get_NIIHa_logOH niihaOh logM).1) :
    0.0624396766589 ≤ v ∧ 0 < v ∧ ∀ L : ℝ, correct_NII L v < L := by
  rw [get_NIIHa_logOH] at hv
  obtain ⟨m, _, rfl⟩ := List.mem_map.mp hv
  have hlb : (0.0624396766589 : ℝ) ≤ NIIHa_of m := by
    rw [NIIHa_of]
    split
    · exact le_refl _
    · rename_i hm
      have h8 : (8.0 : ℝ) < m := not_le.mp hm
      linarith
  refine ⟨hlb, by linarith, fun L => ?_⟩
  rw [correct_NII]
  have hlog : 0 < Real.logb 10 (1 + NIIHa_of m) :=
    Real.logb_pos (by norm_num) (by linarith)
  linarith

/-- C10 witness: the constant ratio at logM = 8 is in the output, and the
NII correction strictly decreases a concrete log flux. -/
theorem NIIHa_pos_correct_NII_decreases_witness :
    (0.0624396766589 : ℝ) ∈ (get_NIIHa_logOH id [8.0]).1
    ∧ correct_NII (-16) 0.0624396766589 < -16 :=
  have hmem : (0.0624396766589 : ℝ) ∈ (get_NIIHa_logOH id [8.0]).1 := by
    rw [get_NIIHa_logOH]
    simp [NIIHa_of]
  ⟨hmem,
   (NIIHa_pos_correct_NII_decreases id [8.0] 0.0624396766589 hmem).2.2 (-16)⟩

/-- C3: for equal-length nonnegative histogram count arrays, a bin is
usable iff both Ng and No are nonzero there; with at least 3 usable bins
stats_plot returns the reduced chi-square
sum(((Ng-No)/sqrt(Ng+No))^2 over usable bins)/(n_usable - 2), and with
fewer than 3 usable bins it returns the NaN sentinel (none) and never an
ordinary numeric value. -/
theorem stats_plot_chi2_spec (Ng No : List ℝ) (hlen : Ng.length = No.length)
    (hNg : ∀ i, i < Ng.length → 0 ≤ Ng.getD i 0)
    (hNo : ∀ i, i < No.length → 0 ≤ No.getD i 0) :
    (∀ i, i ∈ use_bins Ng No ↔
      i < Ng.length ∧ Ng.getD i 0 ≠ 0 ∧ No.getD i 0 ≠ 0)
    ∧ (3 ≤ (use_bins Ng No).card →
        stats_plot Ng No = some ((∑ i ∈ use_bins Ng No,
          ((Ng.getD i 0 - No.getD i 0) /
            Real.sqrt (Ng.getD i 0 + No.getD i 0)) ^ 2) /
          ((use_bins Ng No).card - 2 : ℝ)))
    ∧ ((use_bins Ng No).card < 3 → ∀ c : ℝ, stats_plot Ng No ≠ some c) := by
  refine ⟨?_, ?_, ?_⟩
  · intro i
    rw [use_bins, Finset.mem_filter, Finset.mem_range]
  · intro h3
    rw [stats_plot, if_pos (by omega)]
    simp only [delta_fn]
  · intro h3 c
    rw [stats_plot, if_neg (by omega)]
    exact fun h => Option.noConfusion h

/-- C3 witness: with histograms [1, 2, 0, 0] and [3, 0, 0, 5] only bin 0 is
usable, so the comparator returns the sentinel (not, e.g., some 0). -/
theorem stats_plot_chi2_spec_witness :
    ([1, 2, 0, 0] : List ℝ).length = ([3, 0, 0, 5] : List ℝ).length
    ∧ stats_plot [1, 2, 0, 0] [3, 0, 0, 5] ≠ some 0 :=
  have hbins : use_bins ([1, 2, 0, 0] : List ℝ) ([3, 0, 0, 5] : List ℝ) = {0} := by
    ext i
    rw [use_bins, Finset.mem_filter, Finset.mem_range]
    constructor
    · rintro ⟨hi, hg, ho⟩
      simp only [List.length_cons, List.length_nil] at hi
      interval_cases i
      · exact Finset.mem_singleton_self 0
      · exact absurd (by norm_num [List.getD] : ([3, 0, 0, 5] : List ℝ).getD 1 0 = 0) ho
      · exact absurd (by norm_num [List.getD] : ([1, 2, 0, 0] : List ℝ).getD 2 0 = 0) hg
      · exact absurd (by norm_num [List.getD] : ([1, 2, 0, 0] : List ℝ).getD 3 0 = 0) hg
    · intro hi
      rw [Finset.mem_singleton] at hi
      subst hi
      refine ⟨by norm_num, ?_, ?_⟩ <;> norm_num [List.getD]
  ⟨by simp,
   (stats_plot_chi2_spec [1, 2, 0, 0] [3, 0, 0, 5] (by simp)
      (by intro i hi; simp only [List.length_cons, List.length_nil] at hi
          interval_cases i <;> norm_num [List.getD])
      (by intro i hi; simp only [List.length_cons, List.length_nil] at hi
          interval_cases i <;> norm_num [List.getD])).2.2
    (by rw [hbins]; simp) 0⟩

/-- C6 counterexample: on an all-tied grid (every combined chi-square
equal), the best-fit record receives every tied grid point, not only the
row-major-first one: the selected row list has 16 entries, not 1. -/
theorem best_fit_rows_tie_counterexample :
    (best_fit_rows (fun _ _ => 0) (fun _ _ => 0)).length ≠ 1 := by
  have hval : ∀ p : Fin 4 × Fin 4,
      chi2_wht ((fun _ _ => (0 : ℝ)) p.1 p.2) ((fun _ _ => (0 : ℝ)) p.1 p.2) = 0 := by
    intro p
    simp [chi2_wht]
  have hmin : gridMin (fun _ _ => 0) (fun _ _ => 0) = 0 := by
    rw [gridMin]
    obtain ⟨p, _, hp⟩ := Finset.exists_mem_eq_inf' (H := Finset.univ_nonempty)
      (fun p : Fin 4 × Fin 4 => chi2_wht ((fun _ _ => (0 : ℝ)) p.1 p.2)
        ((fun _ _ => (0 : ℝ)) p.1 p.2))
    rw [hp, hval p]
  have hfull : b_chi2 (fun _ _ => 0) (fun _ _ => 0) = gridRowMajor := by
    rw [b_chi2]
    apply List.filter_eq_self.mpr
    intro p _
    rw [decide_eq_true_eq, hval p, hmin]
  rw [best_fit_rows, hfull]
  rw [show (gridRowMajor.map (fun p => p.1.val * 4 + p.2.val)).length = 16 from by
    rw [List.length_map]
    rfl]
  omega

/-- C6 (amended): the combined metric is sqrt((chi2_EW^2 + chi2_Flux^2)/2);
b_chi2 consists exactly of the grid points attaining the minimum of that
metric over the 4x4 grid, it is never empty, and the flat row indices
selected into the best-fit record are strictly increasing, i.e. listed in
row-major order with the row-major-first minimizer first -- every tied
minimizer is selected, not only the first. -/
theorem best_fit_rows_spec (chiEW chiFl : Fin 4 → Fin 4 → ℝ) :
    (∀ a b : ℝ, chi2_wht a b = Real.sqrt ((a ^ 2 + b ^ 2) / 2))
    ∧ (∀ p : Fin 4 × Fin 4, p ∈ b_chi2 chiEW chiFl ↔
        chi2_wht (chiEW p.1 p.2) (chiFl p.1 p.2) = gridMin chiEW chiFl)
    ∧ (∀ p : Fin 4 × Fin 4,
        gridMin chiEW chiFl ≤ chi2_wht (chiEW p.1 p.2) (chiFl p.1 p.2))
    ∧ b_chi2 chiEW chiFl ≠ []
    ∧ (best_fit_rows chiEW chiFl).Pairwise (· < ·) := by
  have hmem : ∀ p : Fin 4 × Fin 4, p ∈ gridRowMajor := by
    rintro ⟨a, b⟩
    rw [gridRowMajor, List.mem_flatMap]
    exact ⟨a, List.mem_finRange a, List.mem_map.mpr ⟨b, List.mem_finRange b, rfl⟩⟩
  have hiff : ∀ p : Fin 4 × Fin 4, p ∈ b_chi2 chiEW chiFl ↔
      chi2_wht (chiEW p.1 p.2) (chiFl p.1 p.2) = gridMin chiEW chiFl := by
    intro p
    rw [b_chi2, List.mem_filter, decide_eq_true_eq]
    exact ⟨fun h => h.2, fun h => ⟨hmem p, h⟩⟩
  refine ⟨?_, hiff, ?_, ?_, ?_⟩
  · intro a b
    rw [chi2_wht]
    norm_num [add_div]
  · intro p
    exact Finset.inf'_le _ (Finset.mem_univ p)
  · obtain ⟨p, _, hp⟩ := Finset.exists_mem_eq_inf' (H := Finset.univ_nonempty)
      (fun p : Fin 4 × Fin 4 => chi2_wht (chiEW p.1 p.2) (chiFl p.1 p.2))
    exact List.ne_nil_of_mem ((hiff p).mpr (by rw [gridMin, hp]))
  · have hpw : (gridRowMajor.map
        (fun p : Fin 4 × Fin 4 => p.1.val * 4 + p.2.val)).Pairwise (· < ·) := by
      rw [show gridRowMajor.map (fun p : Fin 4 × Fin 4 => p.1.val * 4 + p.2.val) =
        List.range 16 from by decide]
      exact List.pairwise_lt_range 16
    have hsub : List.Sublist (best_fit_rows chiEW chiFl)
        (gridRowMajor.map (fun p : Fin 4 × Fin 4 => p.1.val * 4 + p.2.val)) := by
      rw [best_fit_rows, b_chi2]
      exact (List.filter_sublist gridRowMajor).map _
    exact hpw.sublist hsub

/-- Helper: AB fluxes are strictly positive. -/
theorem flux_of_pos (x : ℝ) : 0 < flux_of x :=
  Real.rpow_pos_of_pos (by norm_num) _

/-- Helper: the AB flux strictly decreases as the magnitude grows. -/
theorem flux_of_strict_anti {x y : ℝ} (h : x < y) : flux_of y < flux_of x := by
  rw [flux_of, flux_of, Real.rpow_lt_rpow_left_iff (by norm_num : (1 : ℝ) < 10)]
  nlinarith

/-- Helper: at the default sigma = 3.0 of NB_select, the scaled limiting
flux is the plain AB flux of the limiting magnitude. -/
theorem flux_limit_three (lim : ℝ) : flux_limit lim 3.0 = flux_of lim := by
  rw [flux_limit]
  norm_num

/-- Helper: a nonnegative first component is below the quadrature sum. -/
theorem le_sqrt_quadrature (a b : ℝ) (ha : 0 ≤ a) :
    a ≤ Real.sqrt (a ^ 2 + b ^ 2) := by
  calc a = Real.sqrt (a ^ 2) := (Real.sqrt_sq ha).symm
  _ ≤ Real.sqrt (a ^ 2 + b ^ 2) := Real.sqrt_le_sqrt (by nlinarith)

/-- Helper: color_cut yields a finite value when the quadrature flux limit
is below the object flux. -/
theorem color_cut_fin_of {x lim1 lim2 : ℝ} (mean sigma : ℝ)
    (h : Real.sqrt (flux_limit lim1 sigma ^ 2 + flux_limit lim2 sigma ^ 2) <
      flux_of x) :
    color_cut x lim1 lim2 mean sigma = RF.fin (mean - 2.5 * Real.logb 10
      (1 - Real.sqrt (flux_limit lim1 sigma ^ 2 + flux_limit lim2 sigma ^ 2) /
        flux_of x)) := by
  rw [color_cut]
  rw [if_pos]
  have hf := flux_of_pos x
  have : Real.sqrt (flux_limit lim1 sigma ^ 2 + flux_limit lim2 sigma ^ 2) /
      flux_of x < 1 := (div_lt_one hf).mpr h
  linarith

/-- Helper: color_cut yields NaN when the quadrature flux limit strictly
exceeds the object flux. -/
theorem color_cut_nan_of {x lim1 lim2 : ℝ} (mean sigma : ℝ)
    (h : flux_of x <
      Real.sqrt (flux_limit lim1 sigma ^ 2 + flux_limit lim2 sigma ^ 2)) :
    color_cut x lim1 lim2 mean sigma = RF.nan := by
  have hf := flux_of_pos x
  have h1 : (1 : ℝ) <
      Real.sqrt (flux_limit lim1 sigma ^ 2 + flux_limit lim2 sigma ^ 2) /
        flux_of x := (one_lt_div hf).mpr h
  rw [color_cut, if_neg (by linarith), if_neg (by linarith)]

/-- C4: color_cut returns mean - 2.5*log10(1 - sqrt(f1^2+f2^2)/f) whenever
the quadrature-combined limiting flux sqrt(f1^2+f2^2) is below the object
flux f = 10^(-0.4*(48.6+x)); whenever sqrt(f1^2+f2^2) >= f the result is
non-finite (NaN for the strict case, and +inf at exact equality where the
log10 argument is 0), signaling not-selectable rather than an error. -/
theorem color_cut_spec (x lim1 lim2 mean sigma : ℝ) :
    (Real.sqrt (flux_limit lim1 sigma ^ 2 + flux_limit lim2 sigma ^ 2) <
        flux_of x →
      color_cut x lim1 lim2 mean sigma = RF.fin (mean - 2.5 * Real.logb 10
        (1 - Real.sqrt (flux_limit lim1 sigma ^ 2 + flux_limit lim2 sigma ^ 2) /
          flux_of x)))
    ∧ (flux_of x ≤
        Real.sqrt (flux_limit lim1 sigma ^ 2 + flux_limit lim2 sigma ^ 2) →
      ¬ (color_cut x lim1 lim2 mean sigma).isFinite)
    ∧ (flux_of x <
        Real.sqrt (flux_limit lim1 sigma ^ 2 + flux_limit lim2 sigma ^ 2) →
      color_cut x lim1 lim2 mean sigma = RF.nan) := by
  refine ⟨color_cut_fin_of mean sigma, ?_, color_cut_nan_of mean sigma⟩
  intro hle
  have hf := flux_of_pos x
  have h1 : (1 : ℝ) ≤
      Real.sqrt (flux_limit lim1 sigma ^ 2 + flux_limit lim2 sigma ^ 2) /
        flux_of x := (one_le_div hf).mpr hle
  rw [color_cut, if_neg (by linarith)]
  split
  · exact fun hfin => hfin
  · exact fun hfin => hfin

/-- C4 witness: for a bright object (x = -100) with limits 26 and 27 the
quadrature flux limit is below the object flux and color_cut is the finite
formula value. -/
theorem color_cut_spec_witness :
    Real.sqrt (flux_limit 26 3.0 ^ 2 + flux_limit 27 3.0 ^ 2) < flux_of (-100)
    ∧ color_cut (-100) 26 27 0 3.0 = RF.fin (0 - 2.5 * Real.logb 10
      (1 - Real.sqrt (flux_limit 26 3.0 ^ 2 + flux_limit 27 3.0 ^ 2) /
        flux_of (-100))) :=
  have h26 : flux_limit 26 3.0 ≤ 1 := by
    rw [flux_limit_three, flux_of]
    exact Real.rpow_le_one_of_one_le_of_nonpos (by norm_num) (by norm_num [m_AB])
  have h27 : flux_limit 27 3.0 ≤ 1 := by
    rw [flux_limit_three, flux_of]
    exact Real.rpow_le_one_of_one_le_of_nonpos (by norm_num) (by norm_num [m_AB])
  have h26n : 0 ≤ flux_limit 26 3.0 := by
    rw [flux_limit_three]
    exact (flux_of_pos 26).le
  have h27n : 0 ≤ flux_limit 27 3.0 := by
    rw [flux_limit_three]
    exact (flux_of_pos 27).le
  have hs : Real.sqrt (flux_limit 26 3.0 ^ 2 + flux_limit 27 3.0 ^ 2) ≤ 2 := by
    calc Real.sqrt (flux_limit 26 3.0 ^ 2 + flux_limit 27 3.0 ^ 2)
        ≤ Real.sqrt (2 ^ 2) := Real.sqrt_le_sqrt (by nlinarith)
    _ = 2 := Real.sqrt_sq (by norm_num)
  have hten : (10 : ℝ) ≤ flux_of (-100) := by
    rw [flux_of]
    calc (10 : ℝ) = (10 : ℝ) ^ (1 : ℝ) := (Real.rpow_one 10).symm
    _ ≤ (10 : ℝ) ^ (-0.4 * (m_AB + (-100))) := by
        rw [Real.rpow_le_rpow_left_iff (by norm_num : (1 : ℝ) < 10)]
        norm_num [m_AB]
  have hlt : Real.sqrt (flux_limit 26 3.0 ^ 2 + flux_limit 27 3.0 ^ 2) <
      flux_of (-100) := by linarith
  ⟨hlt, (color_cut_spec (-100) 26 27 0 3.0).1 hlt⟩

/-- C1 counterexample: the two index sets of NB_select do not always cover
the population.  For filter 0 with any continuum limit (27.0 here), an
object of NB magnitude 100 (fainter than the combined noise floor, so its
sig_limit is NaN) and color excess 10 (above minthres) satisfies neither
the selection mask (x >= sig_limit is false against NaN) nor the
no-selection mask (x < minthres and x < sig_limit are both false), so it is
omitted from both sets. -/
theorem NB_select_cover_counterexample :
    0 < ([10.0] : List ℝ).length
    ∧ 0 ∉ (NB_select (fun _ => 27) 0 [100.0] [10.0]).1
    ∧ 0 ∉ (NB_select (fun _ => 27) 0 [100.0] [10.0]).2.1 := by
  have hm : m_NB 0 = 26.7134 - 0.047 := by simp [m_NB]
  have hnan : sig_limit_at (fun _ => 27) 0 [100.0] 0 = RF.nan := by
    rw [sig_limit_at]
    show color_cut (([100.0] : List ℝ).getD 0 0) (m_NB 0) 27 0.0 3.0 = RF.nan
    have hgd : ([100.0] : List ℝ).getD 0 0 = 100 := by norm_num
    rw [hgd]
    apply color_cut_nan_of
    have h1 : flux_of 100 < flux_of (m_NB 0) := by
      apply flux_of_strict_anti
      rw [hm]
      norm_num
    have h2 : flux_limit (m_NB 0) 3.0 ≤
        Real.sqrt (flux_limit (m_NB 0) 3.0 ^ 2 + flux_limit 27 3.0 ^ 2) := by
      apply le_sqrt_quadrature
      rw [flux_limit_three]
      exact (flux_of_pos _).le
    have h3 : flux_of (m_NB 0) = flux_limit (m_NB 0) 3.0 :=
      (flux_limit_three _).symm
    linarith
  refine ⟨by norm_num, ?_, ?_⟩
  · intro hmem
    simp only [NB_select, Set.mem_setOf_eq] at hmem
    obtain ⟨-, -, hge⟩ := hmem
    rw [hnan] at hge
    exact hge
  · intro hmem
    simp only [NB_select, Set.mem_setOf_eq] at hmem
    obtain ⟨-, hcase⟩ := hmem
    rcases hcase with hlt | hlt
    · have hx : ([10.0] : List ℝ).getD 0 0 = 10 := by norm_num
      rw [hx] at hlt
      have hmt : minthres 0 = 0.15 := by simp [minthres]
      rw [hmt] at hlt
      norm_num at hlt
    · rw [hnan] at hlt
      exact hlt

/-- C1 (amended): an object is in NB_sel iff its color excess is at least
minthres[ff] and at least the sig_limit at its own NB magnitude (with the
IEEE comparison semantics, false against NaN); NB_sel and NB_nosel are
mutually exclusive; and every object whose sig_limit is not NaN lies in one
of the two sets.  Coverage can only fail at objects whose sig_limit is NaN
(as the counterexample shows), so the partition holds exactly on the
population where the color cut is numerically defined. -/
theorem NB_select_partition_amended (contLim : Fin 5 → ℝ) (ff : Fin 5)
    (NB_mag x_mag : List ℝ) (i : ℕ) (hi : i < x_mag.length) :
    (i ∈ (NB_select contLim ff NB_mag x_mag).1 ↔
      minthres ff ≤ x_mag.getD i 0 ∧
        RF.geReal (x_mag.getD i 0) (sig_limit_at contLim ff NB_mag i))
    ∧ ¬(i ∈ (NB_select contLim ff NB_mag x_mag).1 ∧
        i ∈ (NB_select contLim ff NB_mag x_mag).2.1)
    ∧ (sig_limit_at contLim ff NB_mag i ≠ RF.nan →
        i ∈ (NB_select contLim ff NB_mag x_mag).1 ∨
        i ∈ (NB_select contLim ff NB_mag x_mag).2.1) := by
  simp only [NB_select, Set.mem_setOf_eq]
  refine ⟨⟨fun h => ⟨h.2.1, h.2.2⟩, fun h => ⟨hi, h.1, h.2⟩⟩, ?_, ?_⟩
  · rintro ⟨⟨-, hmin, hge⟩, -, hcase⟩
    rcases hcase with hlt | hlt
    · exact absurd hmin (not_le.mpr hlt)
    · cases hsl : sig_limit_at contLim ff NB_mag i with
      | fin r =>
        rw [hsl] at hge hlt
        exact absurd (show (r : ℝ) ≤ x_mag.getD i 0 from hge)
          (not_le.mpr (show x_mag.getD i 0 < r from hlt))
      | pinf =>
        rw [hsl] at hge
        exact hge
      | nan =>
        rw [hsl] at hge
        exact hge
  · intro hnn
    by_cases hmin : minthres ff ≤ x_mag.getD i 0
    · cases hsl : sig_limit_at contLim ff NB_mag i with
      | fin r =>
        by_cases hr : r ≤ x_mag.getD i 0
        · exact Or.inl ⟨hi, hmin, hr⟩
        · exact Or.inr ⟨hi, Or.inr (not_le.mp hr)⟩
      | pinf =>
        exact Or.inr ⟨hi, Or.inr trivial⟩
      | nan =>
        exact absurd hsl hnn
    · exact Or.inr ⟨hi, Or.inl (not_le.mp hmin)⟩

/-- C1 witness: the amended selection and exclusivity statement at a
concrete input, filter 0 with NB magnitude 24 and color excess 0.5. -/
theorem NB_select_partition_amended_witness :
    0 < ([0.5] : List ℝ).length
    ∧ ((0 ∈ (NB_select (fun _ => 27) 0 [24.0] [0.5]).1 ↔
        minthres 0 ≤ ([0.5] : List ℝ).getD 0 0 ∧
          RF.geReal (([0.5] : List ℝ).getD 0 0)
            (sig_limit_at (fun _ => 27) 0 [24.0] 0))
      ∧ ¬(0 ∈ (NB_select (fun _ => 27) 0 [24.0] [0.5]).1 ∧
          0 ∈ (NB_select (fun _ => 27) 0 [24.0] [0.5]).2.1)
      ∧ (sig_limit_at (fun _ => 27) 0 [24.0] 0 ≠ RF.nan →
          0 ∈ (NB_select (fun _ => 27) 0 [24.0] [0.5]).1 ∨
          0 ∈ (NB_select (fun _ => 27) 0 [24.0] [0.5]).2.1)) :=
  ⟨by norm_num,
   NB_select_partition_amended (fun _ => 27) 0 [24.0] [0.5] 0 (by norm_num)⟩

/-- C2: the determinism claim is the intent (the revised ew_MC calls
np.random.seed(EW_seed) for the log-EW draws, which this theorem shows to
be independent of the ambient RNG state), but random_mags breaks it for the
mock magnitude arrays: its np.random.seed = t_seed is an attribute
assignment, not a call, so the seed argument is ignored (first conjunct:
changing t_seed from 7 to 99 changes nothing) and the normal draws come
from the ambient global RNG state (second conjunct: ambient states 0 and 1
give different mock magnitudes for the same t_seed, so two independent runs
need not agree). -/
theorem random_mags_seed_assignment_bug :
    (random_mags 7 2 [20, 21] [1, 1] 0).1 = (random_mags 99 2 [20, 21] [1, 1] 0).1
    ∧ (random_mags 7 2 [20, 21] [1, 1] 0).1 ≠ (random_mags 7 2 [20, 21] [1, 1] 1).1
    ∧ (ew_MC_logEW_draw 0 0 4 3 1.25 0.15 0).1 =
      (ew_MC_logEW_draw 0 0 4 3 1.25 0.15 17).1 := by
  refine ⟨rfl, ?_, rfl⟩
  intro h
  have h0 := congrArg (fun l : List (List ℝ) => (l.getD 0 []).getD 0 0) h
  simp only [random_mags, normalDraw, List.range_succ, List.range_zero] at h0
  norm_num at h0
